import Mathlib

/-!
Verification of the BPE trainer (`cs336_basics/bpe.py`) and the parallel
chunking helper (`cs336_basics/pretokenization_example.py`).

Shallow embedding conventions:
* a Python `bytes` value is a `List Nat` of byte values (`Bytes`);
* a pre-token ("word") is a `List Bytes` (`Word`), mirroring the tuples of
  single-byte `bytes` objects built by `pre_tokenization`;
* a Python `Counter` / `dict` is an association list kept in insertion
  order: updating an existing key rewrites it in place, a fresh key is
  appended at the end, `del` removes the entry — exactly the observable
  behaviour of CPython's insertion-ordered dicts;
* reading the corpus file, the pre-tokenization regex and the special-token
  splitting are external collaborators (spec section 1): `train_bpe` is
  embedded from the point where the word-frequency table exists, and the
  byte-level pipeline takes the pre-tokenizer as a functional parameter;
* `Counter` values may become negative, so pair counts are `Int`.
-/

/-- A symbol: an immutable byte string (Python `bytes`). -/
abbrev Bytes := List Nat

/-- A word: an ordered sequence of symbols (Python `tuple[bytes, ...]`). -/
abbrev Word := List Bytes

/-- An ordered pair of adjacent symbols (Python `tuple[bytes, bytes]`). -/
abbrev BPair := Bytes × Bytes

/-- `Counter` lookup with default 0 (`Counter.__missing__`), `Int`-valued. -/
def ctrGet (l : List (BPair × Int)) (k : BPair) : Int :=
  match l.find? (fun e => decide (e.1 = k)) with
  | some e => e.2
  | none => 0

/-- `c[k] += d` on an `Int` `Counter`: update in place, or append a fresh key. -/
def ctrAdd (l : List (BPair × Int)) (k : BPair) (d : Int) : List (BPair × Int) :=
  if l.any (fun e => decide (e.1 = k)) then
    l.map (fun e => if e.1 = k then (e.1, e.2 + d) else e)
  else
    l ++ [(k, d)]

/-- `del c[k]` on the pair counter. -/
def ctrDel (l : List (BPair × Int)) (k : BPair) : List (BPair × Int) :=
  l.filter (fun e => decide (¬ e.1 = k))

/-- `Counter` lookup with default 0 for the word-frequency table. -/
def wGet (l : List (Word × Nat)) (k : Word) : Nat :=
  match l.find? (fun e => decide (e.1 = k)) with
  | some e => e.2
  | none => 0

/-- `c[k] += d` on the word-frequency table. -/
def wAdd (l : List (Word × Nat)) (k : Word) (d : Nat) : List (Word × Nat) :=
  if l.any (fun e => decide (e.1 = k)) then
    l.map (fun e => if e.1 = k then (e.1, e.2 + d) else e)
  else
    l ++ [(k, d)]

/-- `del c[k]` on the word-frequency table. -/
def wDel (l : List (Word × Nat)) (k : Word) : List (Word × Nat) :=
  l.filter (fun e => decide (¬ e.1 = k))

/-- Python `bytes` comparison `a < b`: lexicographic by byte value, a strict
prefix compares less than the longer string. -/
def bytesLt : List Nat → List Nat → Bool
  | [], [] => false
  | [], _ :: _ => true
  | _ :: _, [] => false
  | a :: as, b :: bs => if a < b then true else if b < a then false else bytesLt as bs

/-- Python tuple comparison `p > q` on pairs of byte strings: compare the left
components first, then the right components. -/
def pairGtB (p q : BPair) : Bool :=
  bytesLt q.1 p.1 || (decide (q.1 = p.1) && bytesLt q.2 p.2)

/-- Python tuple comparison `a > b` on `(count, pair)` sort keys, as used by
`max(pair_counts, key=lambda k: (pair_counts[k], k))`. -/
def keyGtB (a b : Int × BPair) : Bool :=
  decide (b.1 < a.1) || (decide (a.1 = b.1) && pairGtB a.2 b.2)

/-- `max(pair_counts, key=lambda k: (pair_counts[k], k))`: fold over the keys in
iteration order, replacing the current best only on a strictly greater sort key
(CPython `max` keeps the earliest element among equal keys; here sort keys of
distinct pair keys are always distinct since the key itself is part of the sort
key). The `[]` case is unreachable: the loop checks `if not pair_counts` first. -/
def pickBest (pair_counts : List (BPair × Int)) : BPair :=
  match pair_counts with
  | [] => ([], [])
  | e :: rest =>
    (rest.map (fun x => x.1)).foldl
      (fun best k =>
        if keyGtB (ctrGet pair_counts k, k) (ctrGet pair_counts best, best) then k else best)
      e.1

/-- The body of the `while i < length` scan in `train_bpe` (lines 83–101):
rewrites one word left-to-right, replacing each non-overlapping occurrence of
`best_pair` by `new_merge_token`, and performs the incremental `pair_counts`
updates exactly as the source does (the left neighbour used for the update is
the symbol at the *original* index `i-1`, carried here as `prev`). Returns the
rewritten word, the `merge` flag, and the updated counter. -/
def scanMerge (best_pair : BPair) (new_merge_token : Bytes) (count : Int) :
    Option Bytes → Word → List (BPair × Int) → Word × Bool × List (BPair × Int)
  | _, [], pc => ([], false, pc)
  | _, [x], pc => ([x], false, pc)
  | prev, x :: y :: rest, pc =>
    if (x, y) = best_pair then
      let pc1 :=
        match prev with
        | some p => ctrAdd (ctrAdd pc (p, new_merge_token) count) (p, x) (-count)
        | none => pc
      let pc2 :=
        match rest with
        | z :: _ => ctrAdd (ctrAdd pc1 (new_merge_token, z) count) (y, z) (-count)
        | [] => pc1
      let r := scanMerge best_pair new_merge_token count (some y) rest pc2
      (new_merge_token :: r.1, true, r.2.2)
    else
      let r := scanMerge best_pair new_merge_token count (some x) (y :: rest) pc
      (x :: r.1, r.2.1, r.2.2)

/-- One iteration of `for pre_token, count in list(token_counts.items())`
(lines 82–104): the state is the pair `(token_counts, pair_counts)`. -/
def processWord (best_pair : BPair) (new_merge_token : Bytes)
    (st : List (Word × Nat) × List (BPair × Int)) (entry : Word × Nat) :
    List (Word × Nat) × List (BPair × Int) :=
  let r := scanMerge best_pair new_merge_token (entry.2 : Int) none entry.1 st.2
  if r.2.1 then
    (wDel (wAdd st.1 r.1 (wGet st.1 entry.1)) entry.1, r.2.2)
  else
    (st.1, r.2.2)

/-- The full training state of `train_bpe` during the merge loop. -/
structure TrainState where
  token_counts : List (Word × Nat)
  pair_counts : List (BPair × Int)
  vocab : List (Nat × Bytes)
  merges : List BPair
  vocab_count : Nat

/-- One merge round of `train_bpe` (lines 78–109), to be entered only when
`pair_counts` is non-empty: select the best pair, rewrite every word of the
snapshot of `token_counts` with incremental count updates, record the merge,
assign the next vocab id, and delete the merged pair's own entry. -/
def bpeRound (st : TrainState) : TrainState :=
  let best_pair := pickBest st.pair_counts
  let new_merge_token := best_pair.1 ++ best_pair.2
  let r := st.token_counts.foldl (processWord best_pair new_merge_token)
    (st.token_counts, st.pair_counts)
  { token_counts := r.1
    pair_counts := ctrDel r.2 best_pair
    vocab := st.vocab ++ [(st.vocab_count, new_merge_token)]
    merges := st.merges ++ [best_pair]
    vocab_count := st.vocab_count + 1 }

/-- `for index in range(vocab_size - vocab_count)` with the
`if not pair_counts: break` guard (lines 74–77). -/
def bpeLoop : Nat → TrainState → TrainState
  | 0, st => st
  | n + 1, st => if st.pair_counts = [] then st else bpeLoop n (bpeRound st)

/-- Initial pair counting (lines 69–72): for every word and every adjacent pair
in it, accumulate the word's count. -/
def initialPairCounts (token_counts : List (Word × Nat)) : List (BPair × Int) :=
  token_counts.foldl
    (fun pc e => (e.1.zip e.1.tail).foldl (fun pc2 p => ctrAdd pc2 p (e.2 : Int)) pc)
    []

/-- `{i: bytes([i]) for i in range(256)}` (line 53). -/
def baseVocab : List (Nat × Bytes) :=
  (List.range 256).map (fun i => (i, [i]))

/-- `enumerate` with an id offset: builds `[(start, f x0), (start+1, f x1), ...]`.
Used for the special-token block (line 60) and to describe merge-id assignment. -/
def idxFrom (start : Nat) (f : α → β) : List α → List (Nat × β)
  | [] => []
  | x :: xs => (start, f x) :: idxFrom (start + 1) f xs

/-- `train_bpe` from the point where the pre-tokenized word-frequency table
exists (file reading, UTF-8 decoding, special-token splitting and the
pre-tokenization regex are external collaborators, spec section 1):
vocabulary initialization, special-token id reservation, initial pair counting
and the merge loop. Returns the final state. -/
def trainState (token_counts : List (Word × Nat)) (vocab_size : Nat)
    (special_tokens : List Bytes) : TrainState :=
  bpeLoop (vocab_size - (256 + special_tokens.length))
    { token_counts := token_counts
      pair_counts := initialPairCounts token_counts
      vocab := baseVocab ++ idxFrom 256 (fun t => t) special_tokens
      merges := []
      vocab_count := 256 + special_tokens.length }

/-- `train_bpe`'s return value `(vocab, merges)` (line 111). -/
def train_bpe (token_counts : List (Word × Nat)) (vocab_size : Nat)
    (special_tokens : List Bytes) : List (Nat × Bytes) × List BPair :=
  ((trainState token_counts vocab_size special_tokens).vocab,
   (trainState token_counts vocab_size special_tokens).merges)

/-- Number of adjacent occurrences of the pair `p` in the word `w`
(the quantity `zip(pre_token, pre_token[1:])` counts in lines 70–72). -/
def countPairInWord (p : BPair) (w : Word) : Nat :=
  ((w.zip w.tail).filter (fun q => decide (q = p))).length

/-- Recomputing one pair's count from scratch off the word-frequency table:
the sum over all words of `count(word) * (adjacent occurrences of p)` —
the right-hand side of the spec's pair/word consistency invariant. -/
def recomputePC (token_counts : List (Word × Nat)) (p : BPair) : Int :=
  token_counts.foldl (fun acc e => acc + (e.2 : Int) * (countPairInWord p e.1 : Int)) 0

/-- UTF-8 continuation byte: `0x80 ≤ b ≤ 0xBF`. -/
def isCont (b : Nat) : Bool :=
  decide (0x80 ≤ b) && decide (b ≤ 0xBF)

/-- Valid second byte of a three-byte UTF-8 sequence headed by `b1`
(CPython's decoder: `0xE0` narrows to `A0..BF` to exclude overlong forms,
`0xED` narrows to `80..9F` to exclude surrogates). -/
def cont2ok (b1 b2 : Nat) : Bool :=
  if b1 = 0xE0 then decide (0xA0 ≤ b2) && decide (b2 ≤ 0xBF)
  else if b1 = 0xED then decide (0x80 ≤ b2) && decide (b2 ≤ 0x9F)
  else isCont b2

/-- Valid second byte of a four-byte UTF-8 sequence headed by `b1`
(`0xF0` narrows to `90..BF` to exclude overlong forms, `0xF4` narrows to
`80..8F` to cap at `U+10FFFF`). -/
def cont2of4ok (b1 b2 : Nat) : Bool :=
  if b1 = 0xF0 then decide (0x90 ≤ b2) && decide (b2 ≤ 0xBF)
  else if b1 = 0xF4 then decide (0x80 ≤ b2) && decide (b2 ≤ 0x8F)
  else isCont b2

/-- One step of CPython's UTF-8 decoder at a byte `b1` with lookahead `rest`:
returns `(some codepoint, bytes consumed)` for a valid sequence, and
`(none, bytes to skip)` for an invalid one. On error exactly the bytes of the
rejected prefix are skipped and decoding resumes at the offending byte — the
behaviour of the `"ignore"` error handler (`bytes.decode("utf-8",
errors="ignore")`, `bpe.py` line 49; the decoder itself is Python-runtime
code, modelled here from its documented semantics). -/
def utf8Step (b1 : Nat) (rest : List Nat) : Option Nat × Nat :=
  if b1 < 0x80 then (some b1, 1)
  else if 0xC2 ≤ b1 ∧ b1 ≤ 0xDF then
    match rest with
    | b2 :: _ =>
      if isCont b2 then (some ((b1 - 0xC0) * 64 + (b2 - 0x80)), 2) else (none, 1)
    | [] => (none, 1)
  else if 0xE0 ≤ b1 ∧ b1 ≤ 0xEF then
    match rest with
    | b2 :: rest2 =>
      if cont2ok b1 b2 then
        match rest2 with
        | b3 :: _ =>
          if isCont b3 then
            (some ((b1 - 0xE0) * 4096 + (b2 - 0x80) * 64 + (b3 - 0x80)), 3)
          else (none, 2)
        | [] => (none, 2)
      else (none, 1)
    | [] => (none, 1)
  else if 0xF0 ≤ b1 ∧ b1 ≤ 0xF4 then
    match rest with
    | b2 :: rest2 =>
      if cont2of4ok b1 b2 then
        match rest2 with
        | b3 :: rest3 =>
          if isCont b3 then
            match rest3 with
            | b4 :: _ =>
              if isCont b4 then
                (some ((b1 - 0xF0) * 262144 + (b2 - 0x80) * 4096 +
                       (b3 - 0x80) * 64 + (b4 - 0x80)), 4)
              else (none, 3)
            | [] => (none, 3)
          else (none, 2)
        | [] => (none, 2)
      else (none, 1)
    | [] => (none, 1)
  else (none, 1)

/-- The decoding loop of `bytes.decode("utf-8", errors="ignore")`: emit the
codepoint of every valid sequence, silently drop the bytes of every invalid
one. The `fuel` argument only bounds the recursion; every step consumes at
least one byte, so `fuel = length` (as supplied by `utf8DecodeIgnore`) never
runs out. -/
def utf8DecodeLoop : Nat → List Nat → List Nat
  | 0, _ => []
  | _, [] => []
  | fuel + 1, b1 :: rest =>
    match utf8Step b1 rest with
    | (some c, n) => c :: utf8DecodeLoop fuel ((b1 :: rest).drop n)
    | (none, n) => utf8DecodeLoop fuel ((b1 :: rest).drop n)

/-- `corpus_bytes.decode("utf-8", errors="ignore")` (`bpe.py` line 49),
as a list of codepoints. -/
def utf8DecodeIgnore (bs : List Nat) : List Nat :=
  utf8DecodeLoop bs.length bs

/-- The decoding loop of strict `bytes.decode("utf-8")`: `none` models the
`UnicodeDecodeError` raised at the first invalid sequence. -/
def utf8DecodeStrictLoop : Nat → List Nat → Option (List Nat)
  | 0, _ => none
  | _, [] => some []
  | fuel + 1, b1 :: rest =>
    match utf8Step b1 rest with
    | (some c, n) => (utf8DecodeStrictLoop fuel ((b1 :: rest).drop n)).map (fun cs => c :: cs)
    | (none, _) => none

/-- Strict UTF-8 decoding; `none` iff the bytes are not valid UTF-8. -/
def utf8DecodeStrict (bs : List Nat) : Option (List Nat) :=
  utf8DecodeStrictLoop bs.length bs

/-- The UTF-8 encoding of one codepoint, as byte values. -/
def utf8Encode (c : Nat) : List Nat :=
  if c < 0x80 then [c]
  else if c < 0x800 then [0xC0 + c / 64, 0x80 + c % 64]
  else if c < 0x10000 then [0xE0 + c / 4096, 0x80 + c / 64 % 64, 0x80 + c % 64]
  else [0xF0 + c / 262144, 0x80 + c / 4096 % 64, 0x80 + c / 64 % 64, 0x80 + c % 64]

/-- The UTF-8 encoding of a list of codepoints. -/
def encodeAll : List Nat → List Nat
  | [] => []
  | c :: cs => utf8Encode c ++ encodeAll cs

/-- The byte-level training pipeline (`bpe.py` lines 46–64 and onward): read
corpus bytes, decode them with the lossy `errors="ignore"` policy, then hand
the decoded text to the external pre-tokenization capability (special-token
splitting plus the regex, spec sections 1 and 4.1) and train. -/
def trainOnBytes (pretok : List Nat → List (Word × Nat)) (corpus_bytes : List Nat)
    (vocab_size : Nat) (special_tokens : List Bytes) :
    List (Nat × Bytes) × List BPair :=
  train_bpe (pretok (utf8DecodeIgnore corpus_bytes)) vocab_size special_tokens

/-- Python `haystack.find(needle)` (`pretokenization_example.py` line 68):
the least index at which `needle` occurs entirely within `haystack`
(`some 0` for an empty needle), else `none` (Python's `-1`). -/
def bytesFind (needle : List Nat) : List Nat → Option Nat
  | [] => if needle = [] then some 0 else none
  | x :: rest =>
    if List.isPrefixOf needle (x :: rest) then some 0
    else (bytesFind needle rest).map (fun j => j + 1)

/-- The `while True` scan of `find_chunk_boundaries` (lines 59–72) for one
boundary: read 4096-byte mini chunks starting at `pos`; at EOF the boundary
becomes the file size, and when the special token is found within a mini chunk
the boundary becomes the position of the *start* of that occurrence
(`initial_position + found_at`). -/
def scanBoundary (file tok : List Nat) (pos : Nat) : Nat :=
  if h : (file.drop pos).take 4096 = [] then file.length
  else
    match bytesFind tok ((file.drop pos).take 4096) with
    | some j => pos + j
    | none => scanBoundary file tok (pos + 4096)
termination_by file.length - pos
decreasing_by
  have hlt : pos < file.length := by
    rcases Nat.lt_or_ge pos file.length with hc | hc
    · exact hc
    · have hdrop : file.drop pos = [] := List.drop_eq_nil_iff.mpr hc
      exact absurd (by simp [hdrop]) h
  omega

/-- The `for bi in range(1, len(chunk_boundaries) - 1)` loop (lines 56–72):
every entry except the one at index 0 and the final one is snapped by
`scanBoundary`; the first and last entries are left untouched. -/
def snapLoop (file tok : List Nat) : Nat → List Nat → List Nat
  | _, [] => []
  | bi, b :: rest =>
    (if bi = 0 ∨ rest = [] then b else scanBoundary file tok b) :: snapLoop file tok (bi + 1) rest

/-- `find_chunk_boundaries(file, desired_num_chunks, split_special_token)`
(lines 31–75), with the file contents as a byte list. `desired_num_chunks = 0`
makes `file_size // desired_num_chunks` raise `ZeroDivisionError`, modelled as
`none`. Otherwise: uniformly spaced initial guesses with the last entry
overwritten by the file size (`chunk_boundaries[-1] = file_size`), the interior
entries snapped forward, and finally `sorted(set(...))` — ascending order,
duplicates removed. -/
def find_chunk_boundaries (file : List Nat) (desired_num_chunks : Nat)
    (split_special_token : List Nat) : Option (List Nat) :=
  if desired_num_chunks = 0 then none
  else
    let file_size := file.length
    let chunk_size := file_size / desired_num_chunks
    let chunk_boundaries :=
      (((List.range (desired_num_chunks + 1)).map (fun i => i * chunk_size)).dropLast
        ++ [file_size])
    some (List.insertionSort (fun a b => a ≤ b)
      (snapLoop file split_special_token 0 chunk_boundaries).dedup)

/-- Offset `b` lies immediately after an occurrence of `tok` in `file`:
an occurrence of `tok` ends exactly at `b`. -/
def occEndsAt (file tok : List Nat) (b : Nat) : Prop :=
  tok.length ≤ b ∧ (file.drop (b - tok.length)).take tok.length = tok

/-- Example file `"aaaaXbbbb"` used to separate boundary-at-start from
boundary-after-occurrence. -/
def exFile : List Nat := [97, 97, 97, 97, 88, 98, 98, 98, 98]

/-- The special token `"X"` for the example file. -/
def exTok : List Nat := [88]

/-- The word-frequency table of the corpus `"aaaa"`: the pre-tokenization
regex carves an all-letter corpus into the single pre-token `"aaaa"`,
kept because its length is not 1. -/
def aaaaCounts : List (Word × Nat) := [([[97], [97], [97], [97]], 1)]

/-- The word-frequency table of the corpus `"abab"` (one pre-token). -/
def ababCounts : List (Word × Nat) := [([[97], [98], [97], [98]], 1)]

/-- The word-frequency table of the golden corpus `"aaabdaaabac"`, carved as a
single pre-token. -/
def goldenCounts : List (Word × Nat) :=
  [([[97], [97], [97], [98], [100], [97], [97], [97], [98], [97], [99]], 1)]

theorem bytesLt_irrefl : ∀ a : List Nat, bytesLt a a = false := by
  intro a
  induction a with
  | nil => rfl
  | cons x xs ih => simp [bytesLt, ih]

theorem bytesLt_trans : ∀ a b c : List Nat,
    bytesLt a b = true → bytesLt b c = true → bytesLt a c = true := by
  intro a
  induction a with
  | nil =>
    intro b c h1 h2
    cases b with
    | nil => exact absurd h1 (by simp [bytesLt])
    | cons y ys =>
      cases c with
      | nil => exact absurd h2 (by simp [bytesLt])
      | cons z zs => simp [bytesLt]
  | cons x xs ih =>
    intro b c h1 h2
    cases b with
    | nil => exact absurd h1 (by simp [bytesLt])
    | cons y ys =>
      cases c with
      | nil => exact absurd h2 (by simp [bytesLt])
      | cons z zs =>
        simp only [bytesLt] at h1 h2 ⊢
        by_cases hxy : x < y
        · by_cases hyz : y < z
          · rw [if_pos (show x < z by omega)]
          · rw [if_neg hyz] at h2
            by_cases hzy : z < y
            · rw [if_pos hzy] at h2; exact absurd h2 (by simp)
            · rw [if_pos (show x < z by omega)]
        · rw [if_neg hxy] at h1
          by_cases hyx : y < x
          · rw [if_pos hyx] at h1; exact absurd h1 (by simp)
          · rw [if_neg hyx] at h1
            have hxye : x = y := by omega
            subst hxye
            by_cases hxz : x < z
            · rw [if_pos hxz]
            · rw [if_neg hxz] at h2 ⊢
              by_cases hzx : z < x
              · rw [if_pos hzx] at h2; exact absurd h2 (by simp)
              · rw [if_neg hzx] at h2 ⊢
                exact ih ys zs h1 h2

theorem bytesLt_tricho : ∀ a b : List Nat,
    a = b ∨ bytesLt a b = true ∨ bytesLt b a = true := by
  intro a
  induction a with
  | nil =>
    intro b
    cases b with
    | nil => exact Or.inl rfl
    | cons y ys => exact Or.inr (Or.inl (by simp [bytesLt]))
  | cons x xs ih =>
    intro b
    cases b with
    | nil => exact Or.inr (Or.inr (by simp [bytesLt]))
    | cons y ys =>
      by_cases hxy : x < y
      · exact Or.inr (Or.inl (by simp [bytesLt, hxy]))
      · by_cases hyx : y < x
        · exact Or.inr (Or.inr (by simp [bytesLt, hyx]))
        · have hxe : x = y := by omega
          subst hxe
          have hred : ∀ l l' : List Nat, bytesLt (x :: l) (x :: l') = bytesLt l l' := by
            intro l l'
            simp [bytesLt, lt_self_iff_false]
          rcases ih ys with he | hlt | hgt
          · exact Or.inl (by rw [he])
          · exact Or.inr (Or.inl (by rw [hred]; exact hlt))
          · exact Or.inr (Or.inr (by rw [hred]; exact hgt))

theorem pairGtB_irrefl (p : BPair) : pairGtB p p = false := by
  simp [pairGtB, bytesLt_irrefl]

theorem pairGtB_trans (p q r : BPair)
    (h1 : pairGtB p q = true) (h2 : pairGtB q r = true) : pairGtB p r = true := by
  simp only [pairGtB, Bool.or_eq_true, Bool.and_eq_true, decide_eq_true_eq] at h1 h2 ⊢
  rcases h1 with h1 | ⟨h1e, h1lt⟩
  · rcases h2 with h2 | ⟨h2e, h2lt⟩
    · exact Or.inl (bytesLt_trans r.1 q.1 p.1 h2 h1)
    · exact Or.inl (by rw [h2e]; exact h1)
  · rcases h2 with h2 | ⟨h2e, h2lt⟩
    · exact Or.inl (by rw [← h1e]; exact h2)
    · exact Or.inr ⟨by rw [h2e, h1e], bytesLt_trans r.2 q.2 p.2 h2lt h1lt⟩

theorem pairGtB_tricho (p q : BPair) :
    p = q ∨ pairGtB p q = true ∨ pairGtB q p = true := by
  simp only [pairGtB, Bool.or_eq_true, Bool.and_eq_true, decide_eq_true_eq]
  rcases bytesLt_tricho p.1 q.1 with he1 | hlt1 | hgt1
  · rcases bytesLt_tricho p.2 q.2 with he2 | hlt2 | hgt2
    · exact Or.inl (Prod.ext he1 he2)
    · exact Or.inr (Or.inr (Or.inr ⟨he1, hlt2⟩))
    · exact Or.inr (Or.inl (Or.inr ⟨he1.symm, hgt2⟩))
  · exact Or.inr (Or.inr (Or.inl hlt1))
  · exact Or.inr (Or.inl (Or.inl hgt1))

theorem keyGtB_irrefl (a : Int × BPair) : keyGtB a a = false := by
  simp [keyGtB, pairGtB_irrefl]

theorem keyGtB_trans (a b c : Int × BPair)
    (h1 : keyGtB a b = true) (h2 : keyGtB b c = true) : keyGtB a c = true := by
  simp only [keyGtB, Bool.or_eq_true, Bool.and_eq_true, decide_eq_true_eq] at h1 h2 ⊢
  rcases h1 with h1 | ⟨h1e, h1gt⟩
  · rcases h2 with h2 | ⟨h2e, h2gt⟩
    · exact Or.inl (by omega)
    · exact Or.inl (by omega)
  · rcases h2 with h2 | ⟨h2e, h2gt⟩
    · exact Or.inl (by omega)
    · exact Or.inr ⟨by omega, pairGtB_trans a.2 b.2 c.2 h1gt h2gt⟩

theorem keyGtB_tricho (a b : Int × BPair) :
    a = b ∨ keyGtB a b = true ∨ keyGtB b a = true := by
  rcases Int.lt_trichotomy a.1 b.1 with hlt | he | hgt
  · exact Or.inr (Or.inr (by simp [keyGtB, hlt]))
  · rcases pairGtB_tricho a.2 b.2 with hpe | hpgt | hplt
    · exact Or.inl (Prod.ext he hpe)
    · exact Or.inr (Or.inl (by simp [keyGtB, he, hpgt]))
    · exact Or.inr (Or.inr (by simp [keyGtB, he.symm, hplt]))
  · exact Or.inr (Or.inl (by simp [keyGtB, hgt]))

theorem foldBest_mem (pc : List (BPair × Int)) :
    ∀ (ks : List BPair) (b0 : BPair),
      ks.foldl
          (fun best k =>
            if keyGtB (ctrGet pc k, k) (ctrGet pc best, best) then k else best) b0
        ∈ b0 :: ks := by
  intro ks
  induction ks with
  | nil => intro b0; simp
  | cons k ks ih =>
    intro b0
    simp only [List.foldl_cons]
    by_cases h : keyGtB (ctrGet pc k, k) (ctrGet pc b0, b0) = true
    · rw [if_pos h]
      exact List.mem_cons_of_mem b0 (ih k)
    · rw [if_neg h]
      rcases List.mem_cons.mp (ih b0) with he | hm
      · rw [he]; exact List.mem_cons_self b0 _
      · exact List.mem_cons_of_mem b0 (List.mem_cons_of_mem k hm)

theorem foldBest_max (pc : List (BPair × Int)) :
    ∀ (ks : List BPair) (b0 x : BPair), x ∈ b0 :: ks →
      ¬ keyGtB (ctrGet pc x, x)
          (ctrGet pc
              (ks.foldl
                (fun best k =>
                  if keyGtB (ctrGet pc k, k) (ctrGet pc best, best) then k else best) b0),
            ks.foldl
              (fun best k =>
                if keyGtB (ctrGet pc k, k) (ctrGet pc best, best) then k else best) b0) =
        true := by
  intro ks
  induction ks with
  | nil =>
    intro b0 x hx
    rcases List.mem_cons.mp hx with he | hm
    · subst he
      simp only [List.foldl_nil]
      simp [keyGtB_irrefl]
    · exact absurd hm (by simp)
  | cons k ks ih =>
    intro b0 x hx
    simp only [List.foldl_cons]
    by_cases h : keyGtB (ctrGet pc k, k) (ctrGet pc b0, b0) = true
    · rw [if_pos h]
      rcases List.mem_cons.mp hx with he | hm
      · subst he
        intro hcontra
        exact ih k k (List.mem_cons_self k ks)
          (keyGtB_trans _ _ _ h hcontra)
      · exact ih k x hm
    · rw [if_neg h]
      rcases List.mem_cons.mp hx with he | hm
      · subst he
        exact ih x x (List.mem_cons_self x ks)
      · rcases List.mem_cons.mp hm with he2 | hm2
        · subst he2
          rcases keyGtB_tricho (ctrGet pc x, x) (ctrGet pc b0, b0) with heq | hgt | hlt
          · have hxb : x = b0 := congrArg Prod.snd heq
            subst hxb
            exact ih x x (List.mem_cons_self x ks)
          · exact absurd hgt h
          · intro hcontra
            exact ih b0 b0 (List.mem_cons_self b0 ks)
              (keyGtB_trans _ _ _ hlt hcontra)
        · exact ih b0 x (List.mem_cons_of_mem b0 hm2)

/-- C3: in a merge round entered with a non-empty pair-count table, the pair
appended to the merge list is `pickBest pair_counts`, it is one of the table's
keys, and it is maximal: every other key has a strictly smaller count, or an
equal count and a lexicographically smaller `(left, right)` tuple under
byte-value ordering (left bytes first, then right bytes, a strict prefix
ordering less — the ordering encoded by `bytesLt`/`pairGtB`). -/
theorem c3_selects_max_with_lex_tiebreak (st : TrainState) (h : st.pair_counts ≠ []) :
    (bpeRound st).merges = st.merges ++ [pickBest st.pair_counts] ∧
      pickBest st.pair_counts ∈ st.pair_counts.map Prod.fst ∧
      ∀ k ∈ st.pair_counts.map Prod.fst, k ≠ pickBest st.pair_counts →
        ctrGet st.pair_counts k < ctrGet st.pair_counts (pickBest st.pair_counts) ∨
          (ctrGet st.pair_counts k = ctrGet st.pair_counts (pickBest st.pair_counts) ∧
            pairGtB (pickBest st.pair_counts) k = true) := by
  refine ⟨rfl, ?_, ?_⟩
  · rcases hpc : st.pair_counts with _ | ⟨e, rest⟩
    · exact absurd hpc h
    · show pickBest (e :: rest) ∈ (e :: rest).map Prod.fst
      simp only [pickBest, List.map_cons]
      exact foldBest_mem (e :: rest) (rest.map Prod.fst) e.1
  · intro k hk hne
    have hmax : ¬ keyGtB (ctrGet st.pair_counts k, k)
        (ctrGet st.pair_counts (pickBest st.pair_counts), pickBest st.pair_counts) = true := by
      rcases hpc : st.pair_counts with _ | ⟨e, rest⟩
      · exact absurd hpc h
      · rw [hpc] at hk
        simp only [List.map_cons] at hk
        show ¬ keyGtB (ctrGet (e :: rest) k, k)
            (ctrGet (e :: rest) (pickBest (e :: rest)), pickBest (e :: rest)) = true
        simp only [pickBest]
        exact foldBest_max (e :: rest) (rest.map Prod.fst) e.1 k hk
    simp only [keyGtB, Bool.or_eq_true, Bool.and_eq_true, decide_eq_true_eq, not_or,
      not_and] at hmax
    obtain ⟨hnlt, himp⟩ := hmax
    rcases Int.lt_trichotomy (ctrGet st.pair_counts k)
        (ctrGet st.pair_counts (pickBest st.pair_counts)) with hlt | he | hgt
    · exact Or.inl hlt
    · refine Or.inr ⟨he, ?_⟩
      have hnp : ¬ pairGtB k (pickBest st.pair_counts) = true := himp he
      rcases pairGtB_tricho k (pickBest st.pair_counts) with heq | hp | hp
      · exact absurd heq hne
      · exact absurd hp hnp
      · exact hp
    · exact absurd hgt hnlt

theorem c3_selects_max_with_lex_tiebreak_witness :
    (bpeRound
          { token_counts := []
            pair_counts := [(([97], [98]), 2), (([97, 97], [97]), 2), (([98], [97]), 1)]
            vocab := []
            merges := []
            vocab_count := 0 }).merges =
        [] ++ [pickBest [(([97], [98]), 2), (([97, 97], [97]), 2), (([98], [97]), 1)]] ∧
      pickBest [(([97], [98]), 2), (([97, 97], [97]), 2), (([98], [97]), 1)] = ([97, 97], [97]) :=
  ⟨(c3_selects_max_with_lex_tiebreak
      { token_counts := []
        pair_counts := [(([97], [98]), 2), (([97, 97], [97]), 2), (([98], [97]), 1)]
        vocab := []
        merges := []
        vocab_count := 0 } (by decide)).1,
   by decide⟩

theorem idxFrom_append {α β : Type} (f : α → β) (l : List α) (x : α) :
    ∀ start : Nat,
      idxFrom start f (l ++ [x]) = idxFrom start f l ++ [(start + l.length, f x)] := by
  induction l with
  | nil => intro start; simp [idxFrom]
  | cons a as ih =>
    intro start
    have harith : start + 1 + as.length = start + (as.length + 1) := by omega
    simp [idxFrom, ih, harith]

theorem idxFrom_map_fst {α β : Type} (f : α → β) (l : List α) :
    ∀ start : Nat, (idxFrom start f l).map Prod.fst = List.range' start l.length := by
  induction l with
  | nil => intro start; simp [idxFrom]
  | cons a as ih => intro start; simp [idxFrom, ih, List.range'_succ]

/-- Across the merge loop, the vocabulary only accretes: if on entry it is some
prefix `V0` followed by the merge-created entries ids'd consecutively from
`c0`, it stays of that shape, with `vocab_count` tracking the next free id. -/
theorem bpeLoop_vocab (fuel : Nat) :
    ∀ (st : TrainState) (c0 : Nat) (V0 : List (Nat × Bytes)),
      st.vocab_count = c0 + st.merges.length →
      st.vocab = V0 ++ idxFrom c0 (fun p => p.1 ++ p.2) st.merges →
      (bpeLoop fuel st).vocab =
          V0 ++ idxFrom c0 (fun p => p.1 ++ p.2) (bpeLoop fuel st).merges ∧
        (bpeLoop fuel st).vocab_count = c0 + (bpeLoop fuel st).merges.length := by
  induction fuel with
  | zero => intro st c0 V0 hc hv; exact ⟨hv, hc⟩
  | succ n ih =>
    intro st c0 V0 hc hv
    by_cases hpc : st.pair_counts = []
    · simp only [bpeLoop, if_pos hpc]
      exact ⟨hv, hc⟩
    · simp only [bpeLoop, if_neg hpc]
      apply ih
      · show st.vocab_count + 1 = c0 + (st.merges ++ [pickBest st.pair_counts]).length
        have hlen : (st.merges ++ [pickBest st.pair_counts]).length = st.merges.length + 1 := by
          simp
        omega
      · show st.vocab ++ [(st.vocab_count, _)] = _
        rw [hv, hc]
        show _ = V0 ++ idxFrom c0 _ (st.merges ++ [pickBest st.pair_counts])
        rw [idxFrom_append, List.append_assoc]

/-- C6: trivial-size boundary. Whenever `vocab_size ≤ 256 + |special_tokens|`,
the merge loop runs zero rounds (`range(vocab_size - vocab_count)` is empty):
`train_bpe` succeeds, returns an empty merge list, and returns exactly the 256
single-byte entries (ids 0–255) followed by one entry per special token. -/
theorem c6_trivial_vocab_size (token_counts : List (Word × Nat)) (vocab_size : Nat)
    (special_tokens : List Bytes) (h : vocab_size ≤ 256 + special_tokens.length) :
    train_bpe token_counts vocab_size special_tokens =
      (baseVocab ++ idxFrom 256 (fun t => t) special_tokens, []) := by
  have h0 : vocab_size - (256 + special_tokens.length) = 0 := Nat.sub_eq_zero_of_le h
  simp [train_bpe, trainState, h0, bpeLoop]

theorem c6_trivial_vocab_size_witness :
    train_bpe [] 256 [[60], [62]] =
      (baseVocab ++ idxFrom 256 (fun t => t) [[60], [62]], []) :=
  c6_trivial_vocab_size [] 256 [[60], [62]] (by omega)

/-- C7: id assignment. In every vocabulary returned by `train_bpe`, the entries
are exactly: ids 0–255 mapped to the 256 single-byte values, ids
`256 .. 256+|special_tokens|-1` mapped to the special tokens in input order,
and then one entry per merge, in merge-list order, each id assigned exactly
once to the concatenation of the merged pair's symbols — the id list is
`range`, i.e. strictly increasing with no gaps, and entries are only ever
appended, never reassigned or removed. -/
theorem range'_glue (s a b : Nat) :
    List.range' s a ++ List.range' (s + a) b = List.range' s (a + b) := by
  rw [List.range'_append_1, Nat.add_comm]

theorem c7_vocab_id_assignment (token_counts : List (Word × Nat)) (vocab_size : Nat)
    (special_tokens : List Bytes) :
    (train_bpe token_counts vocab_size special_tokens).1 =
        (baseVocab ++ idxFrom 256 (fun t => t) special_tokens) ++
          idxFrom (256 + special_tokens.length) (fun p => p.1 ++ p.2)
            (train_bpe token_counts vocab_size special_tokens).2 ∧
      (train_bpe token_counts vocab_size special_tokens).1.map Prod.fst =
        List.range (256 + special_tokens.length +
          (train_bpe token_counts vocab_size special_tokens).2.length) := by
  have hmain :=
    bpeLoop_vocab (vocab_size - (256 + special_tokens.length))
      { token_counts := token_counts
        pair_counts := initialPairCounts token_counts
        vocab := baseVocab ++ idxFrom 256 (fun t => t) special_tokens
        merges := []
        vocab_count := 256 + special_tokens.length }
      (256 + special_tokens.length)
      (baseVocab ++ idxFrom 256 (fun t => t) special_tokens)
      (by simp) (by simp [idxFrom])
  constructor
  · exact hmain.1
  · rw [show (train_bpe token_counts vocab_size special_tokens).1 = _ from hmain.1]
    simp only [List.map_append, idxFrom_map_fst]
    have hbase : baseVocab.map Prod.fst = List.range 256 := by
      simp [baseVocab, Function.comp_def]
    rw [hbase, List.range_eq_range', List.range_eq_range']
    set L := special_tokens.length with hL
    set M := (train_bpe token_counts vocab_size special_tokens).2.length with hM
    have h1 := range'_glue 0 256 L
    norm_num at h1
    have h2 := range'_glue 0 (256 + L) M
    norm_num at h2
    rw [h1]
    exact h2

/-- C8: determinism. Two runs of the byte-level training pipeline on identical
corpus bytes, identical `vocab_size` and identical `special_tokens` (with the
same pre-tokenization capability) return identical vocabularies and identical
merge lists. -/
theorem c8_deterministic (pretok : List Nat → List (Word × Nat)) (vs1 vs2 : Nat)
    (sp1 sp2 : List Bytes) (bs1 bs2 : List Nat)
    (hb : bs1 = bs2) (hv : vs1 = vs2) (hs : sp1 = sp2) :
    trainOnBytes pretok bs1 vs1 sp1 = trainOnBytes pretok bs2 vs2 sp2 := by
  subst hb; subst hv; subst hs; rfl

theorem c8_deterministic_witness :
    trainOnBytes (fun _ => []) [97] 256 [] = trainOnBytes (fun _ => []) [97] 256 [] :=
  c8_deterministic (fun _ => []) 256 256 [] [] [97] [97] rfl rfl rfl

/-- C10: `find_chunk_boundaries` is not total in `desired_num_chunks`. With
`desired_num_chunks = 0` the division `file_size // desired_num_chunks` raises
`ZeroDivisionError` before any boundary is computed (modelled by `none`);
for every `desired_num_chunks ≥ 1` and every file it returns a result. -/
theorem c10_zero_chunks_division_by_zero (file tok : List Nat) :
    find_chunk_boundaries file 0 tok = none ∧
    ∀ n : Nat, 1 ≤ n → (find_chunk_boundaries file n tok).isSome = true := by
  constructor
  · simp [find_chunk_boundaries]
  · intro n hn
    unfold find_chunk_boundaries
    rw [if_neg (by omega)]
    rfl

theorem c10_zero_chunks_division_by_zero_witness :
    find_chunk_boundaries [97, 98] 0 [88] = none ∧
      (find_chunk_boundaries [97, 98] 3 [88]).isSome = true :=
  ⟨(c10_zero_chunks_division_by_zero [97, 98] [88]).1,
   (c10_zero_chunks_division_by_zero [97, 98] [88]).2 3 (by omega)⟩

theorem bytesFind_prefix_at (tok : List Nat) :
    ∀ (hay : List Nat) (j : Nat), bytesFind tok hay = some j → tok <+: hay.drop j := by
  intro hay
  induction hay with
  | nil =>
    intro j hj
    simp only [bytesFind] at hj
    by_cases ht : tok = []
    · rw [if_pos ht] at hj
      injection hj with hj0
      subst ht
      simp
    · rw [if_neg ht] at hj
      exact absurd hj (by simp)
  | cons x rest ih =>
    intro j hj
    simp only [bytesFind] at hj
    by_cases hp : List.isPrefixOf tok (x :: rest) = true
    · rw [if_pos hp] at hj
      injection hj with hj0
      subst hj0
      simpa using List.isPrefixOf_iff_prefix.mp hp
    · rw [if_neg hp] at hj
      cases hf : bytesFind tok rest with
      | none => rw [hf] at hj; exact absurd hj (by simp)
      | some j1 =>
        rw [hf] at hj
        simp only [Option.map_some'] at hj
        injection hj with hj0
        subst hj0
        simpa [List.drop_succ_cons] using ih j1 hf

theorem scanBoundary_ok (file tok : List Nat) (pos : Nat) :
    scanBoundary file tok pos = file.length ∨
      tok <+: file.drop (scanBoundary file tok pos) := by
  rw [scanBoundary]
  by_cases h : (file.drop pos).take 4096 = []
  · rw [dif_pos h]
    exact Or.inl rfl
  · rw [dif_neg h]
    cases hf : bytesFind tok ((file.drop pos).take 4096) with
    | some j =>
      refine Or.inr ?_
      have h1 : tok <+: ((file.drop pos).take 4096).drop j := bytesFind_prefix_at tok _ j hf
      have h2 : ((file.drop pos).take 4096).drop j <+: (file.drop pos).drop j :=
        List.IsPrefix.drop ( List.take_prefix 4096 (file.drop pos)) j
      have h3 := h1.trans h2
      rwa [List.drop_drop] at h3
    | none =>
      have hlt : pos < file.length := by
        rcases Nat.lt_or_ge pos file.length with hc | hc
        · exact hc
        · have hdrop : file.drop pos = [] := List.drop_eq_nil_iff.mpr hc
          exact absurd (by simp [hdrop]) h
      exact scanBoundary_ok file tok (pos + 4096)
termination_by file.length - pos
decreasing_by omega

theorem snapLoop_tail (file tok : List Nat) :
    ∀ (mid : List Nat) (last bi : Nat), 1 ≤ bi →
      ∀ x ∈ snapLoop file tok bi (mid ++ [last]),
        x = last ∨ ∃ p, x = scanBoundary file tok p := by
  intro mid
  induction mid with
  | nil =>
    intro last bi hbi x hx
    rw [List.nil_append] at hx
    rw [show snapLoop file tok bi [last] = [last] by simp [snapLoop]] at hx
    simp only [List.mem_singleton] at hx
    exact Or.inl hx
  | cons m mid ih =>
    intro last bi hbi x hx
    simp only [List.cons_append, snapLoop, List.append_eq] at hx
    have hcond : ¬ (bi = 0 ∨ mid ++ [last] = ([] : List Nat)) := by
      rintro (h0 | happ)
      · omega
      · exact absurd happ (by simp)
    rw [if_neg hcond] at hx
    rcases List.mem_cons.mp hx with he | hm
    · exact Or.inr ⟨m, he⟩
    · exact ih last (bi + 1) (by omega) x hm

/-- The interior-boundary scan of the example file finds the token `"X"` right
at the initial guess offset 4 and snaps the boundary to the occurrence start. -/
theorem scanBoundary_ex : scanBoundary exFile exTok 4 = 4 := by
  rw [scanBoundary]
  decide

/-- Concrete run: `find_chunk_boundaries` on `"aaaaXbbbb"` with 2 desired
chunks and special token `"X"` returns the boundaries `[0, 4, 9]`. -/
theorem chunkEx_eval : find_chunk_boundaries exFile 2 exTok = some [0, 4, 9] := by
  have h1 : snapLoop exFile exTok 0 [0, 4, 9] = [0, scanBoundary exFile exTok 4, 9] := by
    simp [snapLoop]
  have hsnap : snapLoop exFile exTok 0 [0, 4, 9] = [0, 4, 9] := by
    rw [h1, scanBoundary_ex]
  simp only [find_chunk_boundaries]
  rw [if_neg (by decide)]
  have hlist : (((List.range (2 + 1)).map (fun i => i * (exFile.length / 2))).dropLast
      ++ [exFile.length]) = [0, 4, 9] := by decide
  rw [hlist, hsnap]
  decide

/-- C5: refuted as stated. On the file `"aaaaXbbbb"` with special token `"X"`
and `desired_chunk_count = 2`, the returned boundaries are `[0, 4, 9]`; the
interior boundary 4 is neither the first offset, nor end-of-file (9), nor does
it lie immediately *after* an occurrence of the token (the occurrence occupies
offsets 4..5, so the position immediately after it is 5): the code snaps
boundaries to the *start* of the found occurrence
(`chunk_boundaries[bi] = initial_position + found_at`, line 70). -/
theorem c5_counterexample_boundary_not_after_token :
    find_chunk_boundaries exFile 2 exTok = some [0, 4, 9] ∧
      (4 : Nat) ≠ 0 ∧ (4 : Nat) ≠ exFile.length ∧ ¬ occEndsAt exFile exTok 4 :=
  ⟨chunkEx_eval, by decide, by decide, by unfold occEndsAt; decide⟩

/-- C5 (amended): for every file, desired chunk count and special token, every
offset returned by `find_chunk_boundaries` other than the first (0) and the
last (total file size) lies at the *start* of an occurrence of the
special-token byte sequence, or at end-of-file. -/
theorem c5_amended_boundaries_at_token_start (file : List Nat) (n : Nat)
    (tok : List Nat) (l : List Nat) (hl : find_chunk_boundaries file n tok = some l) :
    ∀ b ∈ l, b = 0 ∨ b = file.length ∨ tok <+: file.drop b := by
  intro b hb
  by_cases hn : n = 0
  · rw [hn] at hl
    exact absurd hl (by simp [find_chunk_boundaries])
  · simp only [find_chunk_boundaries, if_neg hn] at hl
    injection hl with hl
    subst hl
    have hb1 := List.mem_dedup.mp ((List.mem_insertionSort (fun a b => a ≤ b)).mp hb)
    have hn1 : 1 ≤ n := by omega
    have hshape : ((List.range (n + 1)).map (fun i => i * (file.length / n))).dropLast
        ++ [file.length] =
        0 :: (((List.range n).map (fun i => Nat.succ i * (file.length / n))).dropLast
          ++ [file.length]) := by
      rw [List.range_succ_eq_map]
      rw [List.map_cons]
      have hne : (List.range n).map
          (fun i => Nat.succ i * (file.length / n)) ≠ [] := by
        simp only [ne_eq, List.map_eq_nil_iff, List.range_eq_nil]
        omega
      rw [show ((List.range n).map Nat.succ).map (fun i => i * (file.length / n)) =
          (List.range n).map (fun i => Nat.succ i * (file.length / n)) by
        rw [List.map_map]; rfl]
      rw [List.dropLast_cons_of_ne_nil hne]
      simp
    rw [hshape] at hb1
    simp only [snapLoop] at hb1
    rw [if_pos (Or.inl trivial)] at hb1
    rcases List.mem_cons.mp hb1 with he | hm
    · exact Or.inl he
    · rcases snapLoop_tail file tok _ file.length 1 (by omega) b hm with he | ⟨p, hp⟩
      · exact Or.inr (Or.inl he)
      · rcases scanBoundary_ok file tok p with hlen | hpre
        · exact Or.inr (Or.inl (by rw [hp, hlen]))
        · exact Or.inr (Or.inr (by rw [hp]; exact hpre))

theorem c5_amended_boundaries_at_token_start_witness :
    (4 : Nat) = 0 ∨ (4 : Nat) = exFile.length ∨ exTok <+: exFile.drop 4 :=
  c5_amended_boundaries_at_token_start exFile 2 exTok [0, 4, 9] chunkEx_eval 4 (by decide)

theorem utf8Step_pos (b1 : Nat) (rest : List Nat) : 1 ≤ (utf8Step b1 rest).2 := by
  unfold utf8Step
  repeat' split
  all_goals simp

theorem isCont_bounds (b : Nat) (h : isCont b = true) : 0x80 ≤ b ∧ b ≤ 0xBF := by
  simp only [isCont, Bool.and_eq_true, decide_eq_true_eq] at h
  exact h

theorem cont2ok_bounds (b1 b2 : Nat) (h : cont2ok b1 b2 = true) :
    0x80 ≤ b2 ∧ b2 ≤ 0xBF := by
  unfold cont2ok at h
  split_ifs at h <;>
    simp only [isCont, Bool.and_eq_true, decide_eq_true_eq] at h <;> omega

theorem cont2ok_e0 (b2 : Nat) (h : cont2ok 0xE0 b2 = true) : 0xA0 ≤ b2 := by
  unfold cont2ok at h
  rw [if_pos rfl] at h
  simp only [Bool.and_eq_true, decide_eq_true_eq] at h
  omega

theorem cont2of4ok_bounds (b1 b2 : Nat) (h : cont2of4ok b1 b2 = true) :
    0x80 ≤ b2 ∧ b2 ≤ 0xBF := by
  unfold cont2of4ok at h
  split_ifs at h <;>
    simp only [isCont, Bool.and_eq_true, decide_eq_true_eq] at h <;> omega

theorem cont2of4ok_f0 (b2 : Nat) (h : cont2of4ok 0xF0 b2 = true) : 0x90 ≤ b2 := by
  unfold cont2of4ok at h
  rw [if_pos rfl] at h
  simp only [Bool.and_eq_true, decide_eq_true_eq] at h
  omega

theorem utf8Encode_two (b1 b2 : Nat) (h1 : 0xC2 ≤ b1) (h2 : b1 ≤ 0xDF)
    (h3 : 0x80 ≤ b2) (h4 : b2 ≤ 0xBF) :
    utf8Encode ((b1 - 0xC0) * 64 + (b2 - 0x80)) = [b1, b2] := by
  unfold utf8Encode
  rw [if_neg (by omega), if_pos (by omega)]
  simp only [List.cons.injEq, and_true]
  exact ⟨by omega, by omega⟩

theorem utf8Encode_three (b1 b2 b3 : Nat) (h1 : 0xE0 ≤ b1) (h2 : b1 ≤ 0xEF)
    (h3 : 0x80 ≤ b2) (h4 : b2 ≤ 0xBF) (h5 : 0x80 ≤ b3) (h6 : b3 ≤ 0xBF)
    (h7 : 0x800 ≤ (b1 - 0xE0) * 4096 + (b2 - 0x80) * 64 + (b3 - 0x80)) :
    utf8Encode ((b1 - 0xE0) * 4096 + (b2 - 0x80) * 64 + (b3 - 0x80)) = [b1, b2, b3] := by
  unfold utf8Encode
  rw [if_neg (by omega), if_neg (by omega), if_pos (by omega)]
  simp only [List.cons.injEq, and_true]
  exact ⟨by omega, by omega, by omega⟩

theorem utf8Encode_four (b1 b2 b3 b4 : Nat) (h1 : 0xF0 ≤ b1) (h2 : b1 ≤ 0xF4)
    (h3 : 0x80 ≤ b2) (h4 : b2 ≤ 0xBF) (h5 : 0x80 ≤ b3) (h6 : b3 ≤ 0xBF)
    (h7 : 0x80 ≤ b4) (h8 : b4 ≤ 0xBF)
    (h9 : 0x10000 ≤ (b1 - 0xF0) * 262144 + (b2 - 0x80) * 4096 +
      (b3 - 0x80) * 64 + (b4 - 0x80)) :
    utf8Encode ((b1 - 0xF0) * 262144 + (b2 - 0x80) * 4096 +
        (b3 - 0x80) * 64 + (b4 - 0x80)) = [b1, b2, b3, b4] := by
  unfold utf8Encode
  rw [if_neg (by omega), if_neg (by omega), if_neg (by omega)]
  simp only [List.cons.injEq, and_true]
  exact ⟨by omega, by omega, by omega, by omega⟩

theorem utf8Step_encode (b1 : Nat) (rest : List Nat) (c n : Nat)
    (h : utf8Step b1 rest = (some c, n)) :
    utf8Encode c = (b1 :: rest).take n := by
  unfold utf8Step at h
  by_cases ha : b1 < 0x80
  · rw [if_pos ha] at h
    simp only [Prod.mk.injEq, Option.some.injEq] at h
    obtain ⟨hc, hn⟩ := h
    subst hc hn
    simp [utf8Encode, ha]
  · rw [if_neg ha] at h
    by_cases hb : 0xC2 ≤ b1 ∧ b1 ≤ 0xDF
    · rw [if_pos hb] at h
      rcases rest with _ | ⟨b2, rest2⟩
      · simp at h
      · dsimp only at h
        by_cases hc2 : isCont b2 = true
        · rw [if_pos hc2] at h
          simp only [Prod.mk.injEq, Option.some.injEq] at h
          obtain ⟨hc, hn⟩ := h
          subst hc hn
          obtain ⟨hl2, hr2⟩ := isCont_bounds b2 hc2
          rw [show (b1 :: b2 :: rest2).take 2 = [b1, b2] from rfl]
          exact utf8Encode_two b1 b2 hb.1 hb.2 hl2 hr2
        · rw [if_neg hc2] at h
          simp at h
    · rw [if_neg hb] at h
      by_cases he : 0xE0 ≤ b1 ∧ b1 ≤ 0xEF
      · rw [if_pos he] at h
        rcases rest with _ | ⟨b2, rest2⟩
        · simp at h
        · dsimp only at h
          by_cases hc2 : cont2ok b1 b2 = true
          · rw [if_pos hc2] at h
            rcases rest2 with _ | ⟨b3, rest3⟩
            · simp at h
            · dsimp only at h
              by_cases hc3 : isCont b3 = true
              · rw [if_pos hc3] at h
                simp only [Prod.mk.injEq, Option.some.injEq] at h
                obtain ⟨hc, hn⟩ := h
                subst hc hn
                obtain ⟨hl2, hr2⟩ := cont2ok_bounds b1 b2 hc2
                obtain ⟨hl3, hr3⟩ := isCont_bounds b3 hc3
                have hbig : 0x800 ≤ (b1 - 0xE0) * 4096 + (b2 - 0x80) * 64 + (b3 - 0x80) := by
                  by_cases hE0 : b1 = 0xE0
                  · subst hE0
                    have := cont2ok_e0 b2 hc2
                    omega
                  · have : 0xE1 ≤ b1 := by omega
                    omega
                rw [show (b1 :: b2 :: b3 :: rest3).take 3 = [b1, b2, b3] from rfl]
                exact utf8Encode_three b1 b2 b3 he.1 he.2 hl2 hr2 hl3 hr3 hbig
              · rw [if_neg hc3] at h
                simp at h
          · rw [if_neg hc2] at h
            simp at h
      · rw [if_neg he] at h
        by_cases hf : 0xF0 ≤ b1 ∧ b1 ≤ 0xF4
        · rw [if_pos hf] at h
          rcases rest with _ | ⟨b2, rest2⟩
          · simp at h
          · dsimp only at h
            by_cases hc2 : cont2of4ok b1 b2 = true
            · rw [if_pos hc2] at h
              rcases rest2 with _ | ⟨b3, rest3⟩
              · simp at h
              · dsimp only at h
                by_cases hc3 : isCont b3 = true
                · rw [if_pos hc3] at h
                  rcases rest3 with _ | ⟨b4, rest4⟩
                  · simp at h
                  · dsimp only at h
                    by_cases hc4 : isCont b4 = true
                    · rw [if_pos hc4] at h
                      simp only [Prod.mk.injEq, Option.some.injEq] at h
                      obtain ⟨hc, hn⟩ := h
                      subst hc hn
                      obtain ⟨hl2, hr2⟩ := cont2of4ok_bounds b1 b2 hc2
                      obtain ⟨hl3, hr3⟩ := isCont_bounds b3 hc3
                      obtain ⟨hl4, hr4⟩ := isCont_bounds b4 hc4
                      have hbig : 0x10000 ≤ (b1 - 0xF0) * 262144 + (b2 - 0x80) * 4096 +
                          (b3 - 0x80) * 64 + (b4 - 0x80) := by
                        by_cases hF0 : b1 = 0xF0
                        · subst hF0
                          have := cont2of4ok_f0 b2 hc2
                          omega
                        · have : 0xF1 ≤ b1 := by omega
                          omega
                      rw [show (b1 :: b2 :: b3 :: b4 :: rest4).take 4 = [b1, b2, b3, b4]
                        from rfl]
                      exact utf8Encode_four b1 b2 b3 b4 hf.1 hf.2 hl2 hr2 hl3 hr3 hl4 hr4 hbig
                    · rw [if_neg hc4] at h
                      simp at h
                · rw [if_neg hc3] at h
                  simp at h
            · rw [if_neg hc2] at h
              simp at h
        · rw [if_neg hf] at h
          simp at h

theorem encodeAll_decodeLoop_sublist :
    ∀ (fuel : Nat) (bs : List Nat), bs.length ≤ fuel →
      List.Sublist (encodeAll (utf8DecodeLoop fuel bs)) bs := by
  intro fuel
  induction fuel with
  | zero =>
    intro bs hbs
    have hnil : bs = [] := List.length_eq_zero.mp (Nat.le_zero.mp hbs)
    subst hnil
    simp [utf8DecodeLoop, encodeAll]
  | succ m ih =>
    intro bs hbs
    rcases bs with _ | ⟨b1, rest⟩
    · simp [utf8DecodeLoop, encodeAll]
    · rcases hstep : utf8Step b1 rest with ⟨oc, n⟩
      have hpos : 1 ≤ n := by
        have hp := utf8Step_pos b1 rest
        rw [hstep] at hp
        exact hp
      have hlen : ((b1 :: rest).drop n).length ≤ m := by
        simp only [List.length_drop, List.length_cons] at hbs ⊢
        omega
      cases oc with
      | some c =>
        have henc : utf8Encode c = (b1 :: rest).take n := utf8Step_encode b1 rest c n hstep
        have hloop : utf8DecodeLoop (m + 1) (b1 :: rest) =
            c :: utf8DecodeLoop m ((b1 :: rest).drop n) := by
          simp [utf8DecodeLoop, hstep]
        rw [hloop]
        show List.Sublist
          (utf8Encode c ++ encodeAll (utf8DecodeLoop m ((b1 :: rest).drop n))) (b1 :: rest)
        rw [henc]
        conv_rhs => rw [← List.take_append_drop n (b1 :: rest)]
        exact List.Sublist.append (List.Sublist.refl _) (ih _ hlen)
      | none =>
        have hloop : utf8DecodeLoop (m + 1) (b1 :: rest) =
            utf8DecodeLoop m ((b1 :: rest).drop n) := by
          simp [utf8DecodeLoop, hstep]
        rw [hloop]
        exact (ih _ hlen).trans (List.drop_sublist n (b1 :: rest))

/-- C9: lossy decoding. For every corpus byte string that is not valid UTF-8
(strict decoding fails), the training pipeline does not abort: it trains on
the `errors="ignore"` decoding of the bytes, and that decoding keeps only
decodable content — re-encoding it yields a subsequence of the original bytes
(the undecodable byte sequences are dropped, everything else is preserved in
order). -/
theorem c9_lossy_decoding (pretok : List Nat → List (Word × Nat)) (vocab_size : Nat)
    (special_tokens : List Bytes) (bs : List Nat)
    (hinvalid : utf8DecodeStrict bs = none) :
    trainOnBytes pretok bs vocab_size special_tokens =
        train_bpe (pretok (utf8DecodeIgnore bs)) vocab_size special_tokens ∧
      List.Sublist (encodeAll (utf8DecodeIgnore bs)) bs :=
  ⟨rfl, encodeAll_decodeLoop_sublist bs.length bs (Nat.le_refl _)⟩

theorem c9_lossy_decoding_witness :
    utf8DecodeStrict [97, 255, 98] = none ∧
      utf8DecodeIgnore [97, 255, 98] = [97, 98] ∧
      (trainOnBytes (fun _ => []) [97, 255, 98] 256 [] =
          train_bpe ((fun _ => ([] : List (Word × Nat))) (utf8DecodeIgnore [97, 255, 98]))
            256 [] ∧
        List.Sublist (encodeAll (utf8DecodeIgnore [97, 255, 98])) [97, 255, 98]) :=
  ⟨by decide, by decide,
   c9_lossy_decoding (fun _ => []) 256 [] [97, 255, 98] (by decide)⟩

/-- C1: refuted on the code. For the corpus `"aaaa"` with `vocab_size = 257`
(one merge round, merging `(a, a)`), the word table after the round is
`{(aa, aa) : 1}`, yet the incrementally maintained `pair_counts` records
`(aa, a) = 1` and `(a, aa) = 1` — both nonzero but recomputing from scratch
gives 0 — and records `(aa, aa) = 0` although recomputing gives 1: the
incremental update uses the pre-merge neighbour `pre_token[i-1]` even when
that neighbour was itself consumed by the preceding overlapping match. -/
theorem c1_invariant_violated_on_aaaa :
    (trainState aaaaCounts 257 []).token_counts = [([[97, 97], [97, 97]], 1)] ∧
    ctrGet (trainState aaaaCounts 257 []).pair_counts ([97, 97], [97]) = 1 ∧
    recomputePC (trainState aaaaCounts 257 []).token_counts ([97, 97], [97]) = 0 ∧
    ctrGet (trainState aaaaCounts 257 []).pair_counts ([97], [97, 97]) = 1 ∧
    recomputePC (trainState aaaaCounts 257 []).token_counts ([97], [97, 97]) = 0 ∧
    ctrGet (trainState aaaaCounts 257 []).pair_counts ([97, 97], [97, 97]) = 0 ∧
    recomputePC (trainState aaaaCounts 257 []).token_counts ([97, 97], [97, 97]) = 1 := by
  decide

/-- C2: refuted on the code. For the corpus `"abab"`: after the first merge
round (`vocab_size = 257`) the maintained counter holds `(b, a) = -1`, i.e.
the count was decremented below zero (it was 1 and is decremented twice by the
overlapping-match update); and with `vocab_size = 260` the fourth round runs
on the table `[((b, a), -1)]` — non-empty, so no break — and selects `(b, a)`
whose count is `-1`, appending it as the fourth merge. -/
theorem c2_negative_count_selected_on_abab :
    ctrGet (trainState ababCounts 257 []).pair_counts ([98], [97]) = -1 ∧
    (trainState ababCounts 259 []).pair_counts = [(([98], [97]), -1)] ∧
    (trainState ababCounts 260 []).merges =
      (trainState ababCounts 259 []).merges ++ [([98], [97])] ∧
    pickBest (trainState ababCounts 259 []).pair_counts = ([98], [97]) := by
  decide

/-- C4: golden scenario. For the corpus `"aaabdaaabac"` carved as a single
pre-token, with no special tokens and `vocab_size = 259`, `train_bpe` performs
exactly three merges: `(a, a)`, then `(aa, a)`, then `(aaa, b)`. -/
theorem c4_golden_scenario :
    (train_bpe goldenCounts 259 []).2 =
      [([97], [97]), ([97, 97], [97]), ([97, 97, 97], [98])] ∧
    (train_bpe goldenCounts 259 []).2.length = 3 := by
  decide
